import Mathlib

/-!
Verification of the matching-and-diffing engine of `ProposalTools/Checks/diff.py`
(class `DiffCheck`): path resolution by progressive suffix narrowing
(`__find_most_common_path`), the diff/report loop (`__find_diffs`), and the
`difflib` machinery it calls (`SequenceMatcher` with `isjunk=None`, and
`unified_diff` with its defaults `n=3`, `lineterm='\n'`).

Modelling conventions:
* A declared remote path is represented by its segment list, i.e. the tuple
  `Path(source_code.file_name).parts` (for an ordinary relative POSIX path
  `"a/b/c.sol"` this is `["a", "b", "c.sol"]`; for the empty string it is `[]`).
  Where the code uses the path as a *string* (diff header labels, the
  `Compared.proposal_file` field) we render it back with `"/"`-intercalation.
* The local tree under `target_repo = customer_folder / "modules"` is a list of
  files, each a relative segment path with its text content already split into
  lines (`read_text().splitlines()`).  Directories are the proper nonempty
  prefixes of file paths.  `Path.rglob(p)` (= `glob("**/" + p)`) yields every
  existing entry — file *or directory* — whose relative segment path ends with
  the pattern's segments; on a root that does not exist, `Path.glob`'s
  selector returns no entries at all (`_Selector.select_from` checks
  `is_dir`), which we model with the `rootExists` flag.
* Machine integers are `Nat`; the only Python subtraction that could go
  negative is `j2len.get(j-1, 0)` at `j = 0` (Python reads key `-1`, default
  `0`), modelled by an explicit `if j = 0` guard.
* `open(...).write` effects are modelled as a chronological write log
  `(path, content)`; a later write to the same path overwrites an earlier one,
  which `finalArtifacts` (last write wins) makes explicit.
* `read_text()` on a path that is not a file (e.g. the resolved "match" is a
  directory) raises in Python; `findDiffs` returns `Except` to model this as a
  run abort.
-/

namespace QuorumDiff

/-- A remote source entry (`SourceCode` from `api_manager`): the declared
relative path (as its segment list `Path(file_name).parts`) and the content
line list. -/
structure SourceCode where
  file_name : List String
  file_content : List String
  deriving DecidableEq, Repr

/-- The `Compared` dataclass of `diff.py`: local path string, the proposal's
declared file name, and the path of the written diff artifact. -/
structure Compared where
  local_file : String
  proposal_file : String
  diff : String
  deriving DecidableEq, Repr

/-- The local checkout under `target_repo`: its files as relative segment
paths with line contents.  `rootExists = false` models a `target_repo`
directory that does not exist (pathlib's glob then yields nothing). -/
structure LocalRepo where
  rootExists : Bool
  files : List (List String × List String)
  deriving DecidableEq, Repr

/-- Render a relative segment path as the string `str(target_repo / rel)`. -/
def renderLocal (targetRepo : String) (p : List String) : String :=
  targetRepo ++ "/" ++ String.intercalate "/" p

/-- Render a declared path's segments back to the declared path string. -/
def joinSlash (p : List String) : String :=
  String.intercalate "/" p

/-- The nonempty proper prefixes of one file path: the directories its
existence implies. -/
def properDirs (p : List String) : List (List String) :=
  (List.range (p.length - 1)).map (fun k => p.take (k + 1))

/-- All directories of the tree (deduplicated). -/
def dirPaths (repo : LocalRepo) : List (List String) :=
  ((repo.files.map Prod.fst).flatMap properDirs).dedup

/-- `repo.rglob(str(pattern))` for a plain (wildcard-free) segment pattern:
every file or directory of the tree whose relative segment path ends with the
pattern, segment-wise.  Nothing at all if the root does not exist. -/
def rglobMatches (repo : LocalRepo) (pattern : List String) : List (List String) :=
  if repo.rootExists then
    (repo.files.map Prod.fst).filter (fun p => pattern.isSuffixOf p)
      ++ (dirPaths repo).filter (fun d => pattern.isSuffixOf d)
  else []

/-- The loop body of `__find_most_common_path`: try each suffix start index in
order; at the first suffix with exactly one match, return it. -/
def fmcpLoop (repo : LocalRepo) (source_path : List String) : List Nat → Option (List String)
  | [] => none
  | i :: is =>
    let local_files := rglobMatches repo (source_path.drop i)
    if local_files.length = 1 then local_files.head?
    else fmcpLoop repo source_path is

/-- `DiffCheck.__find_most_common_path(source_path, repo)`:
`for i in range(len(source_path.parts)): ...` returning the unique match of
the first suffix that has exactly one, else `None`. -/
def findMostCommonPath (source_path : List String) (repo : LocalRepo) : Option (List String) :=
  fmcpLoop repo source_path (List.range source_path.length)

/-- `local_file.read_text().splitlines()`: the lines of the file at `p`, or
`none` when `p` is not a file of the tree (Python would raise). -/
def readLines (repo : LocalRepo) (p : List String) : Option (List String) :=
  (repo.files.find? (fun f => f.1 == p)).map (fun f => f.2)

/-! ## The `difflib` embedding

`difflib.unified_diff(a, b, fromfile, tofile)` with its defaults `n=3`,
`lineterm='\n'`, built on `SequenceMatcher(None, a, b)`.  Since `isjunk` is
`None`, `self.bjunk` is always empty, so `isbjunk(...)` is constantly false:
the two "junk" extension loops of `find_longest_match` never run and are
omitted, and the `not isbjunk(...)` conjuncts of the other two extension
loops are vacuous.  The *autojunk* popularity rule (elements occurring in
more than 1% of `b` when `len(b) >= 200`) removes elements from `b2j` (they
go to `bpopular`, not to `bjunk`). -/

/-- `SequenceMatcher.__chain_b`'s popularity test: with `autojunk=True`,
an element of `b` is "popular" when `len(b) >= 200` and it occurs more than
`len(b) // 100 + 1` times. -/
def isPopular (b : List String) (x : String) : Bool :=
  decide (200 ≤ b.length ∧ b.length / 100 + 1 < b.count x)

/-- `b2j[x]`: the ascending positions of `x` in `b`, with popular elements
deleted (`b2j.get(x, [])` then yields `[]`). -/
def b2j (b : List String) (x : String) : List Nat :=
  if isPopular b x then []
  else (List.range b.length).filter (fun j => b.getD j "" == x)

/-- The inner `for j in b2j.get(a[i], [])` loop of `find_longest_match`:
`continue` below `blo`, `break` at `bhi`, otherwise chain
`k = newj2len[j] = j2len.get(j-1, 0) + 1` and update the best (strictly
greater only).  Dictionaries are total maps defaulting to `0`; Python's read
of key `-1` at `j = 0` is the explicit guard. -/
def flmLoop (i blo bhi : Nat) (j2len : Nat → Nat) :
    List Nat → (Nat → Nat) → Nat × Nat × Nat → (Nat → Nat) × (Nat × Nat × Nat)
  | [], newj2len, best => (newj2len, best)
  | j :: js, newj2len, best =>
    if j < blo then flmLoop i blo bhi j2len js newj2len best
    else if bhi ≤ j then (newj2len, best)
    else
      let k := (if j = 0 then 0 else j2len (j - 1)) + 1
      let newj2len' : Nat → Nat := fun j' => if j' = j then k else newj2len j'
      let best' := if best.2.2 < k then (i + 1 - k, j + 1 - k, k) else best
      flmLoop i blo bhi j2len js newj2len' best'

/-- The outer `for i in range(alo, ahi)` loop of `find_longest_match`: each
row starts a fresh `newj2len` and then replaces `j2len` with it. -/
def flmRows (a b : List String) (blo bhi : Nat) :
    List Nat → (Nat → Nat) → Nat × Nat × Nat → Nat × Nat × Nat
  | [], _, best => best
  | i :: is, j2len, best =>
    let p := flmLoop i blo bhi j2len (b2j b (a.getD i "")) (fun _ => 0) best
    flmRows a b blo bhi is p.1 p.2

/-- The first extension loop: grow the best block backwards while both sides
have room and the preceding elements agree (the `not isbjunk` conjunct is
vacuous).  Structural on `besti`, which decreases by one per step. -/
def extendBack (a b : List String) (alo blo : Nat) :
    Nat → Nat → Nat → Nat × Nat × Nat
  | 0, bestj, bestsize => (0, bestj, bestsize)
  | bi + 1, bestj, bestsize =>
    if alo < bi + 1 ∧ blo < bestj ∧ a.getD bi "" = b.getD (bestj - 1) "" then
      extendBack a b alo blo bi (bestj - 1) (bestsize + 1)
    else (bi + 1, bestj, bestsize)

/-- The second extension loop: grow the best block forwards while in range
and equal.  The guard `besti + bestsize < ahi` bounds the iteration count by
`ahi`, which is supplied as fuel, so the fuel can never run out. -/
def extendFwdAux (a b : List String) (ahi bhi besti bestj : Nat) :
    Nat → Nat → Nat
  | 0, bestsize => bestsize
  | fuel + 1, bestsize =>
    if besti + bestsize < ahi ∧ bestj + bestsize < bhi ∧
        a.getD (besti + bestsize) "" = b.getD (bestj + bestsize) "" then
      extendFwdAux a b ahi bhi besti bestj fuel (bestsize + 1)
    else bestsize

/-- `SequenceMatcher.find_longest_match(alo, ahi, blo, bhi)` (with
`isjunk=None`, so the junk extension loops are no-ops). -/
def findLongestMatch (a b : List String) (alo ahi blo bhi : Nat) : Nat × Nat × Nat :=
  let r := flmRows a b blo bhi (List.range' alo (ahi - alo)) (fun _ => 0) (alo, blo, 0)
  let r2 := extendBack a b alo blo r.1 r.2.1 r.2.2
  (r2.1, r2.2.1, extendFwdAux a b ahi bhi r2.1 r2.2.1 ahi r2.2.2)

/-- Lexicographic `≤` on `(i, j, k)` triples, Python's tuple order. -/
def tripleLe (x y : Nat × Nat × Nat) : Bool :=
  decide (x.1 < y.1 ∨ (x.1 = y.1 ∧ (x.2.1 < y.2.1 ∨ (x.2.1 = y.2.1 ∧ x.2.2 ≤ y.2.2))))

/-- Stable insertion into a sorted list, for `matching_blocks.sort()`. -/
def insertSorted (x : Nat × Nat × Nat) : List (Nat × Nat × Nat) → List (Nat × Nat × Nat)
  | [] => [x]
  | y :: ys => if tripleLe x y then x :: y :: ys else y :: insertSorted x ys

/-- `matching_blocks.sort()`: insertion sort under the tuple order. -/
def sortBlocks (l : List (Nat × Nat × Nat)) : List (Nat × Nat × Nat) :=
  l.foldr insertSorted []

/-- The `while queue` loop of `get_matching_blocks`.  The queue is a stack
(Python pops from the end; the head here is the most recently pushed, and of
the two children the `(i+k, ahi, ...)` one is pushed last, hence popped
first).  Each iteration strictly decreases
`Σ (ahi - alo + bhi - blo + 1)` over the queue, which starts at
`len(a) + len(b) + 1`; that quantity is supplied as fuel, so the fuel can
never run out. -/
def mbLoop (a b : List String) : Nat → List (Nat × Nat × Nat × Nat) →
    List (Nat × Nat × Nat) → List (Nat × Nat × Nat)
  | 0, _, acc => acc
  | _ + 1, [], acc => acc
  | fuel + 1, (alo, ahi, blo, bhi) :: queue, acc =>
    let m := findLongestMatch a b alo ahi blo bhi
    let i := m.1
    let j := m.2.1
    let k := m.2.2
    if k ≠ 0 then
      let q1 := if alo < i ∧ blo < j then (alo, i, blo, j) :: queue else queue
      let q2 := if i + k < ahi ∧ j + k < bhi then (i + k, ahi, j + k, bhi) :: q1 else q1
      mbLoop a b fuel q2 (acc ++ [(i, j, k)])
    else mbLoop a b fuel queue acc

/-- The adjacent-block collapsing pass of `get_matching_blocks`. -/
def collapseLoop : List (Nat × Nat × Nat) → Nat × Nat × Nat →
    List (Nat × Nat × Nat) → List (Nat × Nat × Nat)
  | [], (i1, j1, k1), acc => if k1 ≠ 0 then acc ++ [(i1, j1, k1)] else acc
  | (i2, j2, k2) :: rest, (i1, j1, k1), acc =>
    if i1 + k1 = i2 ∧ j1 + k1 = j2 then collapseLoop rest (i1, j1, k1 + k2) acc
    else collapseLoop rest (i2, j2, k2)
      (if k1 ≠ 0 then acc ++ [(i1, j1, k1)] else acc)

/-- `SequenceMatcher.get_matching_blocks()`: recursive longest-match
decomposition, sorted, adjacents collapsed, with the `(la, lb, 0)` sentinel. -/
def getMatchingBlocks (a b : List String) : List (Nat × Nat × Nat) :=
  let raw := mbLoop a b (a.length + b.length + 1) [(0, a.length, 0, b.length)] []
  collapseLoop (sortBlocks raw) (0, 0, 0) [] ++ [(a.length, b.length, 0)]

/-- The opcode tags of `SequenceMatcher.get_opcodes()`. -/
inductive DiffTag where
  | equal
  | replace
  | delete
  | insert
  deriving DecidableEq, Repr

/-- One `(tag, i1, i2, j1, j2)` opcode. -/
structure Opcode where
  tag : DiffTag
  i1 : Nat
  i2 : Nat
  j1 : Nat
  j2 : Nat
  deriving DecidableEq, Repr

/-- The fold of `get_opcodes` over the matching blocks. -/
def opcodesLoop : List (Nat × Nat × Nat) → Nat → Nat → List Opcode
  | [], _, _ => []
  | (ai, bj, size) :: rest, i, j =>
    let tagPart : List Opcode :=
      if i < ai ∧ j < bj then [⟨.replace, i, ai, j, bj⟩]
      else if i < ai then [⟨.delete, i, ai, j, bj⟩]
      else if j < bj then [⟨.insert, i, ai, j, bj⟩]
      else []
    let eqPart : List Opcode :=
      if size ≠ 0 then [⟨.equal, ai, ai + size, bj, bj + size⟩] else []
    tagPart ++ eqPart ++ opcodesLoop rest (ai + size) (bj + size)

/-- `SequenceMatcher.get_opcodes()`. -/
def getOpcodes (a b : List String) : List Opcode :=
  opcodesLoop (getMatchingBlocks a b) 0 0

/-- `get_grouped_opcodes`' first fixup: clip a leading `equal` opcode's start
to at most `n` context lines. -/
def fixupFirst (n : Nat) : List Opcode → List Opcode
  | [] => []
  | c :: rest =>
    if c.tag = .equal then
      ⟨c.tag, max c.i1 (c.i2 - n), c.i2, max c.j1 (c.j2 - n), c.j2⟩ :: rest
    else c :: rest

/-- `get_grouped_opcodes`' second fixup: clip a trailing `equal` opcode's end
to at most `n` context lines. -/
def fixupLast (n : Nat) : List Opcode → List Opcode
  | [] => []
  | [c] =>
    [if c.tag = .equal then
      ⟨c.tag, c.i1, min c.i2 (c.i1 + n), c.j1, min c.j2 (c.j1 + n)⟩
    else c]
  | c :: rest => c :: fixupLast n rest

/-- The grouping fold of `get_grouped_opcodes`: split at `equal` runs longer
than `2n`, clipping the yielded group's tail and the next group's head; at
the end, a group that is a single `equal` opcode is dropped. -/
def groupLoop (n : Nat) : List Opcode → List Opcode → List (List Opcode) →
    List (List Opcode)
  | [], group, out =>
    match group with
    | [] => out
    | [g] => if g.tag = .equal then out else out ++ [[g]]
    | _ => out ++ [group]
  | c :: rest, group, out =>
    if c.tag = .equal ∧ 2 * n < c.i2 - c.i1 then
      let closed := group ++ [⟨.equal, c.i1, min c.i2 (c.i1 + n), c.j1, min c.j2 (c.j1 + n)⟩]
      let carried : Opcode := ⟨.equal, max c.i1 (c.i2 - n), c.i2, max c.j1 (c.j2 - n), c.j2⟩
      groupLoop n rest [carried] (out ++ [closed])
    else groupLoop n rest (group ++ [c]) out

/-- `SequenceMatcher.get_grouped_opcodes(n)` (the `unified_diff` default is
`n = 3`), including the `[("equal", 0, 1, 0, 1)]` stand-in for an empty
opcode list. -/
def groupedOpcodes (a b : List String) (n : Nat) : List (List Opcode) :=
  let codes0 := getOpcodes a b
  let codes1 := if codes0 = [] then [⟨.equal, 0, 1, 0, 1⟩] else codes0
  groupLoop n (fixupLast n (fixupFirst n codes1)) [] []

/-- `difflib._format_range_unified(start, stop)`. -/
def formatRangeUnified (start stop : Nat) : String :=
  let length := stop - start
  let beginning := start + 1
  if length = 1 then Nat.repr beginning
  else if length = 0 then Nat.repr start ++ ",0"
  else Nat.repr beginning ++ "," ++ Nat.repr length

/-- Python `l[i:j]` for `0 ≤ i ≤ j` within bounds. -/
def slice (l : List String) (i j : Nat) : List String :=
  (l.drop i).take (j - i)

/-- The per-opcode body lines of a unified-diff hunk. -/
def opcodeLines (a b : List String) (c : Opcode) : List String :=
  match c.tag with
  | .equal => (slice a c.i1 c.i2).map (fun line => " " ++ line)
  | .replace => (slice a c.i1 c.i2).map (fun line => "-" ++ line)
      ++ (slice b c.j1 c.j2).map (fun line => "+" ++ line)
  | .delete => (slice a c.i1 c.i2).map (fun line => "-" ++ line)
  | .insert => (slice b c.j1 c.j2).map (fun line => "+" ++ line)

/-- One hunk of `unified_diff`: the `@@` header (with the default
`lineterm='\n'` appended) followed by the body lines (no terminator added —
the inputs are `splitlines()` output). -/
def hunkLines (a b : List String) (g : List Opcode) : List String :=
  match g with
  | [] => []
  | c :: _ =>
    let last := g.getLastD c
    ("@@ -" ++ formatRangeUnified c.i1 last.i2 ++ " +"
        ++ formatRangeUnified c.j1 last.j2 ++ " @@\n")
      :: g.flatMap (opcodeLines a b)

/-- `difflib.unified_diff(a, b, fromfile, tofile)` with defaults
`fromfiledate=tofiledate=''`, `n=3`, `lineterm='\n'`: the generated line
sequence.  The `---`/`+++` headers (with `lineterm` appended) are produced
before the first group only. -/
def unifiedDiff (a b : List String) (fromfile tofile : String) : List String :=
  match groupedOpcodes a b 3 with
  | [] => []
  | groups =>
    ("--- " ++ fromfile ++ "\n") :: ("+++ " ++ tofile ++ "\n")
      :: groups.flatMap (hunkLines a b)

/-- `'\n'.join(lines)`. -/
def joinNl : List String → String
  | [] => ""
  | [x] => x
  | x :: xs => x ++ "\n" ++ joinNl xs

/-- `diff_text = '\n'.join(difflib.unified_diff(...))` of `__find_diffs`. -/
def diffText (a b : List String) (fromfile tofile : String) : String :=
  joinNl (unifiedDiff a b fromfile tofile)

/-! ## The `__find_diffs` loop -/

/-- `PurePath.stem` of a file name: the name without its last suffix
(`"c.sol" ↦ "c"`, `"a.b.c" ↦ "a.b"`, `".env" ↦ ".env"`, `"foo." ↦ "foo."`). -/
def stemOf (name : String) : String :=
  let cs := name.toList
  let t := (cs.reverse.takeWhile (fun ch => ch ≠ '.')).length
  -- `i = name.rfind('.') = cs.length - t - 1` when a dot exists; the suffix
  -- is split off only when `0 < i < len(name) - 1`.
  if t = cs.length ∨ t = 0 ∨ t + 1 = cs.length then name
  else ⟨cs.take (cs.length - t - 1)⟩

/-- `local_file.stem`: the stem of the last path segment. -/
def pathStem (p : List String) : String :=
  stemOf (p.getLastD "")

/-- The abort of a run: `read_text()` raised because the resolved path is not
a file of the tree. -/
inductive RunError where
  | readFailure (path : List String)
  deriving DecidableEq, Repr

/-- The outcome of `__find_diffs`: the two report buckets and the
chronological artifact write log (path, content). -/
structure DiffRunResult where
  missing : List SourceCode
  files_with_diffs : List Compared
  writes : List (String × String)
  deriving DecidableEq, Repr

/-- `DiffCheck.__find_diffs()`: resolve each entry; unresolved entries are
appended to `missing_files`; resolved ones are read and diffed, a non-empty
diff is written to `check_folder / f"{local_file.stem}.patch"` and recorded
as a `Compared`.  `targetRepo` renders `str(target_repo)` and `checkFolder`
renders `str(self.check_folder)`. -/
def findDiffs (targetRepo checkFolder : String) (repo : LocalRepo) :
    List SourceCode → Except RunError DiffRunResult
  | [] => .ok ⟨[], [], []⟩
  | sc :: rest =>
    match findMostCommonPath sc.file_name repo with
    | none =>
      (findDiffs targetRepo checkFolder repo rest).map
        (fun r => ⟨sc :: r.missing, r.files_with_diffs, r.writes⟩)
    | some local_file =>
      match readLines repo local_file with
      | none => .error (.readFailure local_file)
      | some local_content =>
        let dt := diffText local_content sc.file_content
          (renderLocal targetRepo local_file) (joinSlash sc.file_name)
        if dt ≠ "" then
          let diff_file_path := checkFolder ++ "/" ++ pathStem local_file ++ ".patch"
          (findDiffs targetRepo checkFolder repo rest).map
            (fun r => ⟨r.missing,
              ⟨renderLocal targetRepo local_file, joinSlash sc.file_name, diff_file_path⟩
                :: r.files_with_diffs,
              (diff_file_path, dt) :: r.writes⟩)
        else findDiffs targetRepo checkFolder repo rest

/-- An entry is clean when it resolves, reads, and its computed delta is
empty (such an entry leaves no trace in the report). -/
def isClean (targetRepo : String) (repo : LocalRepo) (sc : SourceCode) : Bool :=
  match findMostCommonPath sc.file_name repo with
  | none => false
  | some local_file =>
    match readLines repo local_file with
    | none => false
    | some local_content =>
      diffText local_content sc.file_content
        (renderLocal targetRepo local_file) (joinSlash sc.file_name) == ""

/-- The number of clean entries of a run. -/
def cleanCount (targetRepo : String) (repo : LocalRepo) (scs : List SourceCode) : Nat :=
  scs.countP (isClean targetRepo repo)

/-- Last-write-wins reading of the artifact write log: the content a path
holds once the run (or runs) finished. -/
def finalArtifacts : List (String × String) → String → Option String
  | [], _ => none
  | w :: ws, p =>
    match finalArtifacts ws p with
    | some t => some t
    | none => if w.1 == p then some w.2 else none

instance {ε α : Type} [DecidableEq ε] [DecidableEq α] : DecidableEq (Except ε α) := fun x y =>
  match x, y with
  | .ok a, .ok b =>
    if h : a = b then .isTrue (congrArg Except.ok h)
    else .isFalse (fun hc => h (by injection hc))
  | .error a, .error b =>
    if h : a = b then .isTrue (congrArg Except.error h)
    else .isFalse (fun hc => h (by injection hc))
  | .ok _, .error _ => .isFalse (fun hc => Except.noConfusion hc)
  | .error _, .ok _ => .isFalse (fun hc => Except.noConfusion hc)

/-! ## Resolution lemmas -/

theorem fmcpLoop_append (repo : LocalRepo) (sp : List String) (l1 l2 : List Nat)
    (h : ∀ j ∈ l1, (rglobMatches repo (sp.drop j)).length ≠ 1) :
    fmcpLoop repo sp (l1 ++ l2) = fmcpLoop repo sp l2 := by
  induction l1 with
  | nil => rfl
  | cons a as ih =>
    have ha := h a (List.mem_cons_self a as)
    simp only [List.cons_append, fmcpLoop, if_neg ha]
    exact ih (fun j hj => h j (List.mem_cons_of_mem a hj))

theorem fmcpLoop_none (repo : LocalRepo) (sp : List String) (l : List Nat)
    (h : ∀ j ∈ l, (rglobMatches repo (sp.drop j)).length ≠ 1) :
    fmcpLoop repo sp l = none := by
  have := fmcpLoop_append repo sp l [] h
  simpa using this

theorem findMostCommonPath_none (repo : LocalRepo) (sp : List String)
    (h : ∀ i < sp.length, (rglobMatches repo (sp.drop i)).length ≠ 1) :
    findMostCommonPath sp repo = none :=
  fmcpLoop_none repo sp _ (fun j hj => h j (List.mem_range.mp hj))

theorem rglobMatches_no_root (repo : LocalRepo) (pattern : List String)
    (h : repo.rootExists = false) : rglobMatches repo pattern = [] := by
  simp [rglobMatches, h]

/-- Splitting `range n` at `i ≤ n` into the indices before and from `i`. -/
theorem range_split (n i : Nat) (h : i ≤ n) :
    List.range n = List.range i ++ List.range' i (n - i) := by
  rw [List.range_eq_range', List.range_eq_range']
  have happ := List.range'_append 0 i (n - i) 1
  simp only [Nat.one_mul, Nat.zero_add] at happ
  rw [happ]
  congr 1
  omega

/-!
## Claim theorems
-/

/-- **C1.** Resolution iterates over ever-shorter suffixes of the declared
path and returns the single match of the first (longest) suffix with exactly
one match, without continuing to shorter suffixes: if index `i` is the first
whose suffix has exactly one match `m`, the resolver returns `m`. -/
theorem c1_resolver_returns_first_unique_suffix_match
    (repo : LocalRepo) (sp : List String) (i : Nat) (m : List String)
    (hi : i < sp.length)
    (hu : rglobMatches repo (sp.drop i) = [m])
    (hmin : ∀ j < i, (rglobMatches repo (sp.drop j)).length ≠ 1) :
    findMostCommonPath sp repo = some m := by
  unfold findMostCommonPath
  rw [range_split sp.length i (Nat.le_of_lt hi)]
  rw [fmcpLoop_append repo sp _ _ (fun j hj => hmin j (List.mem_range.mp hj))]
  have hlen : sp.length - i = (sp.length - i - 1) + 1 := by omega
  rw [hlen]
  have hsucc : List.range' i (sp.length - i - 1 + 1) = i :: List.range' (i + 1) (sp.length - i - 1) := by
    simpa using List.range'_succ i (sp.length - i - 1) 1
  rw [hsucc]
  simp only [fmcpLoop, hu]
  rfl

/-- Witness for C1 at the spec's own example: declared path `a/b/c.sol` in a
tree containing `x/a/b/c.sol` and `y/c.sol` resolves to `x/a/b/c.sol`. -/
theorem c1_witness :
    rglobMatches ⟨true, [(["x", "a", "b", "c.sol"], ["l1"]), (["y", "c.sol"], ["l2"])]⟩
        (["a", "b", "c.sol"].drop 0) = [["x", "a", "b", "c.sol"]] ∧
    findMostCommonPath ["a", "b", "c.sol"]
        ⟨true, [(["x", "a", "b", "c.sol"], ["l1"]), (["y", "c.sol"], ["l2"])]⟩ =
      some ["x", "a", "b", "c.sol"] :=
  ⟨by decide,
   c1_resolver_returns_first_unique_suffix_match _ _ 0 _ (by decide) (by decide)
     (fun j hj => absurd hj (Nat.not_lt_zero j))⟩

/-- **C4.** When every suffix, down to and including the bare filename,
yields zero or multiple matches, resolution returns `None`; the entry is
appended to the missing list and the run continues with the remaining
entries (intermediate multiple matches never abort, they only narrow). -/
theorem c4_unresolved_is_missing_and_run_continues
    (targetRepo checkFolder : String) (repo : LocalRepo) (sc : SourceCode)
    (rest : List SourceCode)
    (h : ∀ i < sc.file_name.length, (rglobMatches repo (sc.file_name.drop i)).length ≠ 1) :
    findMostCommonPath sc.file_name repo = none ∧
    findDiffs targetRepo checkFolder repo (sc :: rest) =
      (findDiffs targetRepo checkFolder repo rest).map
        (fun r => ⟨sc :: r.missing, r.files_with_diffs, r.writes⟩) := by
  have hn := findMostCommonPath_none repo sc.file_name h
  exact ⟨hn, by simp [findDiffs, hn]⟩

/-- Witness for C4: `c.sol` is ambiguous at every narrowing level
(`x/c.sol` and `y/c.sol` both exist), so the entry lands in `missing` while
the rest of the run proceeds. -/
theorem c4_witness :
    (∀ i < (["c.sol"] : List String).length,
      (rglobMatches ⟨true, [(["x", "c.sol"], ["a"]), (["y", "c.sol"], ["b"])]⟩
        (["c.sol"].drop i)).length ≠ 1) ∧
    findDiffs "m" "ck" ⟨true, [(["x", "c.sol"], ["a"]), (["y", "c.sol"], ["b"])]⟩
        [⟨["c.sol"], ["a"]⟩] =
      (findDiffs "m" "ck" ⟨true, [(["x", "c.sol"], ["a"]), (["y", "c.sol"], ["b"])]⟩ []).map
        (fun r => ⟨⟨["c.sol"], ["a"]⟩ :: r.missing, r.files_with_diffs, r.writes⟩) :=
  ⟨by decide,
   (c4_unresolved_is_missing_and_run_continues "m" "ck" _ _ _ (by decide)).2⟩

/-- **C6 (counterexample).** With a nonexistent local root the run does not
fail before processing: every entry is processed and recorded as a per-file
missing entry, and the run completes normally — there is no fatal
precondition failure anywhere in the shown code. -/
theorem c6_counterexample_no_root_means_all_missing :
    findMostCommonPath ["a.sol"] ⟨false, [(["a.sol"], ["line"])]⟩ = none ∧
    findDiffs "m" "ck" ⟨false, [(["a.sol"], ["line"])]⟩ [⟨["a.sol"], ["line"]⟩] =
      .ok ⟨[⟨["a.sol"], ["line"]⟩], [], []⟩ := by
  exact ⟨by decide, by decide⟩

/-- **C6 (amended).** A local root that does not exist is *not* detected as a
precondition failure: `rglob` on it yields nothing, so every entry resolves
to `None` and the whole run completes with every entry in the missing
bucket, no diffs and no writes. -/
theorem c6_amended_no_root_all_entries_missing
    (targetRepo checkFolder : String) (repo : LocalRepo) (scs : List SourceCode)
    (h : repo.rootExists = false) :
    findDiffs targetRepo checkFolder repo scs = .ok ⟨scs, [], []⟩ := by
  induction scs with
  | nil => rfl
  | cons sc rest ih =>
    have hres : findMostCommonPath sc.file_name repo = none := by
      apply findMostCommonPath_none
      intro i _
      rw [rglobMatches_no_root repo _ h]
      simp
    simp [findDiffs, hres, ih, Except.map]

/-- Witness for the amended C6. -/
theorem c6_amended_witness :
    (LocalRepo.rootExists ⟨false, [(["a.sol"], ["line"])]⟩ = false) ∧
    findDiffs "m" "ck" ⟨false, [(["a.sol"], ["line"])]⟩
        [⟨["a.sol"], ["line"]⟩, ⟨["b.sol"], ["l2"]⟩] =
      .ok ⟨[⟨["a.sol"], ["line"]⟩, ⟨["b.sol"], ["l2"]⟩], [], []⟩ :=
  ⟨rfl, c6_amended_no_root_all_entries_missing "m" "ck" _ _ rfl⟩

/-- **C10.** An empty declared path has no segments: `range(0)` is empty, so
resolution performs no search iteration and returns `None` without raising,
and `__find_diffs` records the entry as missing and continues — the code
totalizes the case the spec leaves undefined. -/
theorem c10_empty_declared_path_is_missing
    (targetRepo checkFolder : String) (repo : LocalRepo) (content : List String)
    (rest : List SourceCode) :
    findMostCommonPath [] repo = none ∧
    findDiffs targetRepo checkFolder repo (⟨[], content⟩ :: rest) =
      (findDiffs targetRepo checkFolder repo rest).map
        (fun r => ⟨⟨[], content⟩ :: r.missing, r.files_with_diffs, r.writes⟩) := by
  refine ⟨rfl, ?_⟩
  simp [findDiffs]
  rfl

/-! ## Unfolding equations for one `__find_diffs` iteration -/

theorem findDiffs_cons_none (targetRepo checkFolder : String) (repo : LocalRepo)
    (sc : SourceCode) (rest : List SourceCode)
    (h : findMostCommonPath sc.file_name repo = none) :
    findDiffs targetRepo checkFolder repo (sc :: rest) =
      (findDiffs targetRepo checkFolder repo rest).map
        (fun r => ⟨sc :: r.missing, r.files_with_diffs, r.writes⟩) := by
  simp [findDiffs, h]

theorem findDiffs_cons_read_error (targetRepo checkFolder : String) (repo : LocalRepo)
    (sc : SourceCode) (rest : List SourceCode) (lf : List String)
    (h1 : findMostCommonPath sc.file_name repo = some lf)
    (h2 : readLines repo lf = none) :
    findDiffs targetRepo checkFolder repo (sc :: rest) = .error (.readFailure lf) := by
  simp [findDiffs, h1, h2]

theorem findDiffs_cons_clean (targetRepo checkFolder : String) (repo : LocalRepo)
    (sc : SourceCode) (rest : List SourceCode) (lf local_content : List String)
    (h1 : findMostCommonPath sc.file_name repo = some lf)
    (h2 : readLines repo lf = some local_content)
    (h3 : diffText local_content sc.file_content
      (renderLocal targetRepo lf) (joinSlash sc.file_name) = "") :
    findDiffs targetRepo checkFolder repo (sc :: rest) =
      findDiffs targetRepo checkFolder repo rest := by
  simp [findDiffs, h1, h2, h3]

theorem findDiffs_cons_diff (targetRepo checkFolder : String) (repo : LocalRepo)
    (sc : SourceCode) (rest : List SourceCode) (lf local_content : List String)
    (h1 : findMostCommonPath sc.file_name repo = some lf)
    (h2 : readLines repo lf = some local_content)
    (h3 : diffText local_content sc.file_content
      (renderLocal targetRepo lf) (joinSlash sc.file_name) ≠ "") :
    findDiffs targetRepo checkFolder repo (sc :: rest) =
      (findDiffs targetRepo checkFolder repo rest).map
        (fun r => ⟨r.missing,
          ⟨renderLocal targetRepo lf, joinSlash sc.file_name,
            checkFolder ++ "/" ++ pathStem lf ++ ".patch"⟩ :: r.files_with_diffs,
          (checkFolder ++ "/" ++ pathStem lf ++ ".patch",
            diffText local_content sc.file_content
              (renderLocal targetRepo lf) (joinSlash sc.file_name)) :: r.writes⟩) := by
  simp [findDiffs, h1, h2, h3]

/-! ## Write-log lemmas -/

theorem finalArtifacts_append (xs ys : List (String × String)) (p : String) :
    finalArtifacts (xs ++ ys) p =
      match finalArtifacts ys p with
      | some t => some t
      | none => finalArtifacts xs p := by
  induction xs with
  | nil =>
    cases h : finalArtifacts ys p <;> simp [finalArtifacts, h]
  | cons w xs ih =>
    show (match finalArtifacts (xs ++ ys) p with
          | some t => some t
          | none => if (w.1 == p) = true then some w.2 else none) =
        match finalArtifacts ys p with
        | some t => some t
        | none => finalArtifacts (w :: xs) p
    rw [ih]
    cases finalArtifacts ys p with
    | some t => rfl
    | none => rfl

/-- The content `finalArtifacts` reads comes from the *last* write to the
path: there is a surviving write index `k`, no later write touches the path,
and every write to the path is at an index `≤ k`. -/
theorem finalArtifacts_spec (ws : List (String × String)) (p : String) :
    (finalArtifacts ws p = none ∧
      ∀ (j : Nat) (hj : j < ws.length), (ws.get ⟨j, hj⟩).1 ≠ p) ∨
    (∃ (k : Nat) (hk : k < ws.length),
      finalArtifacts ws p = some ((ws.get ⟨k, hk⟩).2) ∧ (ws.get ⟨k, hk⟩).1 = p ∧
      ∀ (m : Nat) (hm : m < ws.length), k < m → (ws.get ⟨m, hm⟩).1 ≠ p) := by
  induction ws with
  | nil => exact .inl ⟨rfl, fun j hj => absurd hj (by simp)⟩
  | cons w ws ih =>
    rcases ih with ⟨hnone, hall⟩ | ⟨k, hk, hsome, hkp, hmax⟩
    · by_cases hw : (w.1 == p) = true
      · refine .inr ⟨0, by simp, ?_, by simpa using hw, ?_⟩
        · simp [finalArtifacts, hnone, hw]
        · intro m hm h0m
          match m, hm with
          | m' + 1, hm => exact hall m' (by simpa using hm)
      · refine .inl ⟨by simp [finalArtifacts, hnone, hw], ?_⟩
        intro j hj
        match j, hj with
        | 0, _ => simpa using hw
        | j' + 1, hj => exact hall j' (by simpa using hj)
    · refine .inr ⟨k + 1, by simpa using hk, ?_, by simpa using hkp, ?_⟩
      · simp [finalArtifacts, hsome]
      · intro m hm hkm
        match m, hm with
        | m' + 1, hm => exact hmax m' (by simpa using hm) (by omega)

/-- Two writes to the same path: the surviving artifact content stems from a
write no earlier than the later of the two. -/
theorem finalArtifacts_overwrite (ws : List (String × String)) (i j : Nat)
    (hi : i < ws.length) (hj : j < ws.length) (_hij : i < j)
    (heq : (ws.get ⟨i, hi⟩).1 = (ws.get ⟨j, hj⟩).1) :
    ∃ (k : Nat) (hk : k < ws.length), j ≤ k ∧
      (ws.get ⟨k, hk⟩).1 = (ws.get ⟨i, hi⟩).1 ∧
      finalArtifacts ws ((ws.get ⟨i, hi⟩).1) = some ((ws.get ⟨k, hk⟩).2) := by
  rcases finalArtifacts_spec ws ((ws.get ⟨i, hi⟩).1) with ⟨_, hall⟩ | ⟨k, hk, hsome, hkp, hmax⟩
  · exact absurd rfl (hall i hi)
  · refine ⟨k, hk, ?_, hkp, hsome⟩
    by_contra hlt
    exact hmax j hj (by omega) heq.symm

/-- **C9.** The check is deterministic: two runs on the same local tree,
remote entries and folders produce the same report and the same write log;
and replaying the identical write log a second time leaves every artifact's
final content byte-identical. -/
theorem c9_two_runs_identical (targetRepo checkFolder : String) (repo : LocalRepo)
    (scs : List SourceCode) (r r' : DiffRunResult)
    (h : findDiffs targetRepo checkFolder repo scs = .ok r)
    (h' : findDiffs targetRepo checkFolder repo scs = .ok r') :
    r = r' ∧
    ∀ p, finalArtifacts (r.writes ++ r'.writes) p = finalArtifacts r.writes p := by
  have heq : r = r' := by
    rw [h] at h'
    injection h'
  subst heq
  refine ⟨rfl, fun p => ?_⟩
  rw [finalArtifacts_append]
  cases hf : finalArtifacts r.writes p <;> simp

/-- Witness for C9: a one-entry diffing run, executed twice. -/
theorem c9_witness :
    findDiffs "m" "ck" ⟨true, [(["a.sol"], ["a", "b", "c"])]⟩ [⟨["a.sol"], ["a", "x", "c"]⟩] =
      .ok ⟨[], [⟨"m/a.sol", "a.sol", "ck/a.patch"⟩],
        [("ck/a.patch", "--- m/a.sol\n\n+++ a.sol\n\n@@ -1,3 +1,3 @@\n\n a\n-b\n+x\n c")]⟩ ∧
    (⟨[], [⟨"m/a.sol", "a.sol", "ck/a.patch"⟩],
        [("ck/a.patch", "--- m/a.sol\n\n+++ a.sol\n\n@@ -1,3 +1,3 @@\n\n a\n-b\n+x\n c")]⟩ :
      DiffRunResult) =
      ⟨[], [⟨"m/a.sol", "a.sol", "ck/a.patch"⟩],
        [("ck/a.patch", "--- m/a.sol\n\n+++ a.sol\n\n@@ -1,3 +1,3 @@\n\n a\n-b\n+x\n c")]⟩ ∧
    ∀ p, finalArtifacts
        ((⟨[], [⟨"m/a.sol", "a.sol", "ck/a.patch"⟩],
          [("ck/a.patch", "--- m/a.sol\n\n+++ a.sol\n\n@@ -1,3 +1,3 @@\n\n a\n-b\n+x\n c")]⟩ :
            DiffRunResult).writes ++
          (⟨[], [⟨"m/a.sol", "a.sol", "ck/a.patch"⟩],
          [("ck/a.patch", "--- m/a.sol\n\n+++ a.sol\n\n@@ -1,3 +1,3 @@\n\n a\n-b\n+x\n c")]⟩ :
            DiffRunResult).writes) p =
      finalArtifacts
        (⟨[], [⟨"m/a.sol", "a.sol", "ck/a.patch"⟩],
          [("ck/a.patch", "--- m/a.sol\n\n+++ a.sol\n\n@@ -1,3 +1,3 @@\n\n a\n-b\n+x\n c")]⟩ :
            DiffRunResult).writes p := by
  have h : findDiffs "m" "ck" ⟨true, [(["a.sol"], ["a", "b", "c"])]⟩
      [⟨["a.sol"], ["a", "x", "c"]⟩] =
      .ok ⟨[], [⟨"m/a.sol", "a.sol", "ck/a.patch"⟩],
        [("ck/a.patch", "--- m/a.sol\n\n+++ a.sol\n\n@@ -1,3 +1,3 @@\n\n a\n-b\n+x\n c")]⟩ := by
    decide
  exact ⟨h, (c9_two_runs_identical "m" "ck" _ _ _ _ h h).1,
    (c9_two_runs_identical "m" "ck" _ _ _ _ h h).2⟩

/-- **C3.** Completeness of the bucketing: when a run completes, every entry
is in exactly one bucket — missing, diffing, or clean (resolved with empty
delta) — and the three counts add up to the input length. -/
theorem c3_bucket_completeness (targetRepo checkFolder : String) (repo : LocalRepo)
    (scs : List SourceCode) (r : DiffRunResult)
    (h : findDiffs targetRepo checkFolder repo scs = .ok r) :
    r.missing.length + r.files_with_diffs.length + cleanCount targetRepo repo scs =
      scs.length := by
  induction scs generalizing r with
  | nil =>
    simp only [findDiffs] at h
    injection h with h
    subst h
    simp [cleanCount]
  | cons sc rest ih =>
    cases hres : findMostCommonPath sc.file_name repo with
    | none =>
      rw [findDiffs_cons_none targetRepo checkFolder repo sc rest hres] at h
      cases hrest : findDiffs targetRepo checkFolder repo rest with
      | error e => rw [hrest] at h; exact absurd h (by simp [Except.map])
      | ok r' =>
        rw [hrest] at h
        simp only [Except.map] at h
        injection h with h
        subst h
        have hclean : isClean targetRepo repo sc = false := by simp [isClean, hres]
        have hsum := ih r' hrest
        simp only [cleanCount] at hsum
        simp [cleanCount, List.countP_cons, hclean]
        omega
    | some lf =>
      cases hread : readLines repo lf with
      | none =>
        rw [findDiffs_cons_read_error targetRepo checkFolder repo sc rest lf hres hread] at h
        exact absurd h (by simp)
      | some local_content =>
        by_cases hdt : diffText local_content sc.file_content
            (renderLocal targetRepo lf) (joinSlash sc.file_name) = ""
        · rw [findDiffs_cons_clean targetRepo checkFolder repo sc rest lf local_content
            hres hread hdt] at h
          have hclean : isClean targetRepo repo sc = true := by
            simp [isClean, hres, hread, hdt]
          have hsum := ih r h
          simp only [cleanCount] at hsum
          simp [cleanCount, List.countP_cons, hclean]
          omega
        · rw [findDiffs_cons_diff targetRepo checkFolder repo sc rest lf local_content
            hres hread hdt] at h
          cases hrest : findDiffs targetRepo checkFolder repo rest with
          | error e => rw [hrest] at h; exact absurd h (by simp [Except.map])
          | ok r' =>
            rw [hrest] at h
            simp only [Except.map] at h
            injection h with h
            subst h
            have hclean : isClean targetRepo repo sc = false := by
              simp [isClean, hres, hread, hdt]
            have hsum := ih r' hrest
            simp only [cleanCount] at hsum
            simp [cleanCount, List.countP_cons, hclean]
            omega

/-- Witness for C3: one missing, one diffing and one clean entry; the counts
add up to 3. -/
theorem c3_witness :
    findDiffs "m" "ck" ⟨true, [(["a.sol"], ["a"]), (["b.sol"], ["b"])]⟩
        [⟨["zzz.sol"], ["x"]⟩, ⟨["a.sol"], ["y"]⟩, ⟨["b.sol"], ["b"]⟩] =
      .ok ⟨[⟨["zzz.sol"], ["x"]⟩], [⟨"m/a.sol", "a.sol", "ck/a.patch"⟩],
        [("ck/a.patch", "--- m/a.sol\n\n+++ a.sol\n\n@@ -1 +1 @@\n\n-a\n+y")]⟩ ∧
    1 + 1 + cleanCount "m" ⟨true, [(["a.sol"], ["a"]), (["b.sol"], ["b"])]⟩
        [⟨["zzz.sol"], ["x"]⟩, ⟨["a.sol"], ["y"]⟩, ⟨["b.sol"], ["b"]⟩] = 3 := by
  have h : findDiffs "m" "ck" ⟨true, [(["a.sol"], ["a"]), (["b.sol"], ["b"])]⟩
      [⟨["zzz.sol"], ["x"]⟩, ⟨["a.sol"], ["y"]⟩, ⟨["b.sol"], ["b"]⟩] =
      .ok ⟨[⟨["zzz.sol"], ["x"]⟩], [⟨"m/a.sol", "a.sol", "ck/a.patch"⟩],
        [("ck/a.patch", "--- m/a.sol\n\n+++ a.sol\n\n@@ -1 +1 @@\n\n-a\n+y")]⟩ := by
    decide
  exact ⟨h, c3_bucket_completeness "m" "ck" _ _ _ h⟩

/-- The local tree of the C7 witness: two files named `api.sol` in different
directories, resolved by their distinct parent-directory suffixes. -/
def c7Repo : LocalRepo :=
  ⟨true, [(["d1", "api.sol"], ["a"]), (["d2", "api.sol"], ["b"])]⟩

/-- The remote entries of the C7 witness: both divergent, both resolving to a
local file with base name `api`. -/
def c7Entries : List SourceCode :=
  [⟨["d1", "api.sol"], ["x"]⟩, ⟨["d2", "api.sol"], ["y"]⟩]

/-- The report the C7 witness run produces: two `Compared` entries whose
artifacts collide on `ck/api.patch`, and two writes to that same path. -/
def c7Run : DiffRunResult :=
  ⟨[],
   [⟨"m/d1/api.sol", "d1/api.sol", "ck/api.patch"⟩,
    ⟨"m/d2/api.sol", "d2/api.sol", "ck/api.patch"⟩],
   [("ck/api.patch", "--- m/d1/api.sol\n\n+++ d1/api.sol\n\n@@ -1 +1 @@\n\n-a\n+x"),
    ("ck/api.patch", "--- m/d2/api.sol\n\n+++ d2/api.sol\n\n@@ -1 +1 @@\n\n-b\n+y")]⟩

/-- **C7.** Every artifact write of a run belongs to a `Compared` entry (in
order), every `Compared` entry's artifact path is
`check_folder / f"{local_file.stem}.patch"` for its resolved local path, and
when two writes target the same artifact path the surviving content comes
from the later write — collisions are neither disambiguated nor errors. -/
theorem c7_artifact_naming_and_overwrite (targetRepo checkFolder : String)
    (repo : LocalRepo) (scs : List SourceCode) (r : DiffRunResult)
    (h : findDiffs targetRepo checkFolder repo scs = .ok r) :
    r.writes.map Prod.fst = r.files_with_diffs.map Compared.diff ∧
    (∀ c ∈ r.files_with_diffs, ∃ p : List String,
      c.local_file = renderLocal targetRepo p ∧
      c.diff = checkFolder ++ "/" ++ pathStem p ++ ".patch") ∧
    (∀ (i j : Nat) (hi : i < r.writes.length) (hj : j < r.writes.length), i < j →
      (r.writes.get ⟨i, hi⟩).1 = (r.writes.get ⟨j, hj⟩).1 →
      ∃ (k : Nat) (hk : k < r.writes.length), j ≤ k ∧
        (r.writes.get ⟨k, hk⟩).1 = (r.writes.get ⟨i, hi⟩).1 ∧
        finalArtifacts r.writes ((r.writes.get ⟨i, hi⟩).1) =
          some ((r.writes.get ⟨k, hk⟩).2)) := by
  have hmain : r.writes.map Prod.fst = r.files_with_diffs.map Compared.diff ∧
      ∀ c ∈ r.files_with_diffs, ∃ p : List String,
        c.local_file = renderLocal targetRepo p ∧
        c.diff = checkFolder ++ "/" ++ pathStem p ++ ".patch" := by
    induction scs generalizing r with
    | nil =>
      simp only [findDiffs] at h
      injection h with h
      subst h
      simp
    | cons sc rest ih =>
      cases hres : findMostCommonPath sc.file_name repo with
      | none =>
        rw [findDiffs_cons_none targetRepo checkFolder repo sc rest hres] at h
        cases hrest : findDiffs targetRepo checkFolder repo rest with
        | error e => rw [hrest] at h; exact absurd h (by simp [Except.map])
        | ok r' =>
          rw [hrest] at h
          simp only [Except.map] at h
          injection h with h
          subst h
          exact ih r' hrest
      | some lf =>
        cases hread : readLines repo lf with
        | none =>
          rw [findDiffs_cons_read_error targetRepo checkFolder repo sc rest lf hres hread] at h
          exact absurd h (by simp)
        | some local_content =>
          by_cases hdt : diffText local_content sc.file_content
              (renderLocal targetRepo lf) (joinSlash sc.file_name) = ""
          · rw [findDiffs_cons_clean targetRepo checkFolder repo sc rest lf local_content
              hres hread hdt] at h
            exact ih r h
          · rw [findDiffs_cons_diff targetRepo checkFolder repo sc rest lf local_content
              hres hread hdt] at h
            cases hrest : findDiffs targetRepo checkFolder repo rest with
            | error e => rw [hrest] at h; exact absurd h (by simp [Except.map])
            | ok r' =>
              rw [hrest] at h
              simp only [Except.map] at h
              injection h with h
              subst h
              obtain ⟨ihm, ihc⟩ := ih r' hrest
              refine ⟨by simpa using ihm, ?_⟩
              intro c hc
              rcases List.mem_cons.mp hc with hc | hc
              · subst hc; exact ⟨lf, rfl, rfl⟩
              · exact ihc c hc
  exact ⟨hmain.1, hmain.2,
    fun i j hi hj hij heq => finalArtifacts_overwrite r.writes i j hi hj hij heq⟩

/-- Witness for C7: the collision run — both entries divergent, both local
files with stem `api`, both writes to `ck/api.patch`, and the surviving
content is the second write's. -/
theorem c7_witness :
    findDiffs "m" "ck" c7Repo c7Entries = .ok c7Run ∧
    (c7Run.writes.map Prod.fst = c7Run.files_with_diffs.map Compared.diff ∧
      (∀ c ∈ c7Run.files_with_diffs, ∃ p : List String,
        c.local_file = renderLocal "m" p ∧
        c.diff = "ck" ++ "/" ++ pathStem p ++ ".patch") ∧
      (∀ (i j : Nat) (hi : i < c7Run.writes.length) (hj : j < c7Run.writes.length),
        i < j →
        (c7Run.writes.get ⟨i, hi⟩).1 = (c7Run.writes.get ⟨j, hj⟩).1 →
        ∃ (k : Nat) (hk : k < c7Run.writes.length), j ≤ k ∧
          (c7Run.writes.get ⟨k, hk⟩).1 = (c7Run.writes.get ⟨i, hi⟩).1 ∧
          finalArtifacts c7Run.writes ((c7Run.writes.get ⟨i, hi⟩).1) =
            some ((c7Run.writes.get ⟨k, hk⟩).2))) ∧
    finalArtifacts c7Run.writes "ck/api.patch" =
      some "--- m/d2/api.sol\n\n+++ d2/api.sol\n\n@@ -1 +1 @@\n\n-b\n+y" := by
  have h : findDiffs "m" "ck" c7Repo c7Entries = .ok c7Run := by decide
  exact ⟨h, c7_artifact_naming_and_overwrite "m" "ck" c7Repo c7Entries c7Run h, by decide⟩

/-! ## C8: what a successful resolution can return -/

theorem fmcpLoop_some (repo : LocalRepo) (sp : List String) (l : List Nat)
    (p : List String) (h : fmcpLoop repo sp l = some p) :
    ∃ i ∈ l, rglobMatches repo (sp.drop i) = [p] := by
  induction l with
  | nil => exact absurd h (by simp [fmcpLoop])
  | cons a as ih =>
    simp only [fmcpLoop] at h
    by_cases hlen : (rglobMatches repo (sp.drop a)).length = 1
    · rw [if_pos hlen] at h
      obtain ⟨x, hx⟩ := List.length_eq_one.mp hlen
      refine ⟨a, List.mem_cons_self a as, ?_⟩
      rw [hx] at h ⊢
      simp only [List.head?] at h
      injection h with h
      rw [h]
    · rw [if_neg hlen] at h
      obtain ⟨i, hi, hm⟩ := ih h
      exact ⟨i, List.mem_cons_of_mem a hi, hm⟩

/-- **C8 (amended).** A successful resolution returns the unique *entry* of
the tree — a file **or a directory** — whose relative path ends segment-wise
with the first uniquely-matching suffix; substring-only matches are never
returned, but directory matches are possible. -/
theorem c8_amended_unique_segmentwise_entry (repo : LocalRepo) (sp p : List String)
    (h : findMostCommonPath sp repo = some p) :
    repo.rootExists = true ∧
    ∃ i, i < sp.length ∧ rglobMatches repo (sp.drop i) = [p] ∧
      (sp.drop i).isSuffixOf p = true ∧
      (p ∈ repo.files.map Prod.fst ∨ p ∈ dirPaths repo) := by
  obtain ⟨i, hil, hm⟩ := fmcpLoop_some repo sp _ p h
  have hmem : p ∈ rglobMatches repo (sp.drop i) := by
    rw [hm]; exact List.mem_cons_self p []
  have hroot : repo.rootExists = true := by
    cases hr : repo.rootExists with
    | true => rfl
    | false =>
      rw [rglobMatches_no_root repo _ hr] at hm
      exact absurd hm (by simp)
  refine ⟨hroot, i, List.mem_range.mp hil, hm, ?_⟩
  simp only [rglobMatches, hroot, if_true] at hmem
  rcases List.mem_append.mp hmem with hf | hd
  · have hf' := List.mem_filter.mp hf
    exact ⟨hf'.2, Or.inl hf'.1⟩
  · have hd' := List.mem_filter.mp hd
    exact ⟨hd'.2, Or.inr hd'.1⟩

/-- Witness for the amended C8, at the counterexample tree: the unique match
of `c.sol` is the directory `x/c.sol`. -/
theorem c8_amended_witness :
    findMostCommonPath ["c.sol"] ⟨true, [(["x", "c.sol", "inner.txt"], ["code"])]⟩ =
      some ["x", "c.sol"] ∧
    ((LocalRepo.rootExists ⟨true, [(["x", "c.sol", "inner.txt"], ["code"])]⟩ = true) ∧
      ∃ i, i < (["c.sol"] : List String).length ∧
        rglobMatches ⟨true, [(["x", "c.sol", "inner.txt"], ["code"])]⟩
          (["c.sol"].drop i) = [["x", "c.sol"]] ∧
        ((["c.sol"] : List String).drop i).isSuffixOf ["x", "c.sol"] = true ∧
        (["x", "c.sol"] ∈ ([(["x", "c.sol", "inner.txt"], ["code"])].map
            (Prod.fst (β := List String))) ∨
          ["x", "c.sol"] ∈ dirPaths ⟨true, [(["x", "c.sol", "inner.txt"], ["code"])]⟩)) :=
  ⟨by decide, c8_amended_unique_segmentwise_entry _ _ _ (by decide)⟩

/-- **C8 (counterexample).** Resolution can return a *directory*: in a tree
whose only file is `x/c.sol/inner.txt`, the declared path `c.sol` resolves to
the directory `x/c.sol`, which is not a file of the tree; the subsequent
`read_text()` then aborts the run. -/
theorem c8_counterexample_directory_match :
    findMostCommonPath ["c.sol"] ⟨true, [(["x", "c.sol", "inner.txt"], ["code"])]⟩ =
      some ["x", "c.sol"] ∧
    ¬ (["x", "c.sol"] ∈ ([(["x", "c.sol", "inner.txt"], ["code"])].map
        (Prod.fst (β := List String)))) ∧
    findDiffs "m" "ck" ⟨true, [(["x", "c.sol", "inner.txt"], ["code"])]⟩
        [⟨["c.sol"], ["r"]⟩] =
      .error (.readFailure ["x", "c.sol"]) := by
  refine ⟨by decide, by decide, by decide⟩

/-! ## C2: a strict unified-diff consumer

The spec requires the artifact to be "byte-faithful unified-diff convention
(`---`/`+++` headers carrying the two labels, `@@` hunk headers,
`-`/`+`/` ` prefixed lines) so that the artifact is directly usable with
standard patch tooling".  The patch tool itself is outside the repository,
so the strict reader below is modelled from the spec's words: a document is
two header lines followed by hunks, each hunk an `@@ -a,b +c,d @@` line
followed by exactly the announced number of ` `-context, `-`-removal and
`+`-addition lines; anything else (in particular a blank line where a
prefixed line is due) is a parse failure. -/

/-- Split a character list at every newline. -/
def splitNlAux : List Char → List Char → List String
  | [], acc => [⟨acc.reverse⟩]
  | c :: cs, acc =>
    if c = '\n' then (⟨acc.reverse⟩ : String) :: splitNlAux cs []
    else splitNlAux cs (c :: acc)

/-- The lines of a diff document (split at `'\n'`). -/
def docLines (s : String) : List String :=
  splitNlAux s.data []

/-- Parse a nonempty all-digit character list as a decimal number. -/
def digitsValAux : List Char → Nat → Option Nat
  | [], acc => some acc
  | c :: cs, acc =>
    if c.isDigit then digitsValAux cs (acc * 10 + (c.toNat - '0'.toNat)) else none

/-- Modelled from the spec: parse a decimal line number. -/
def parseDec : List Char → Option Nat
  | [] => none
  | cs => digitsValAux cs 0

/-- Split a character list at every occurrence of `sep`. -/
def splitCharAux (sep : Char) : List Char → List Char → List (List Char)
  | [], acc => [acc.reverse]
  | c :: cs, acc =>
    if c = sep then acc.reverse :: splitCharAux sep cs []
    else splitCharAux sep cs (c :: acc)

/-- Modelled from the spec: parse `a,b` or a bare `a` (length defaults to 1)
of a hunk header range. -/
def parseHunkRange (cs : List Char) : Option (Nat × Nat) :=
  match splitCharAux ',' cs [] with
  | [a] => (parseDec a).map (fun x => (x, 1))
  | [a, l] =>
    match parseDec a, parseDec l with
    | some x, some y => some (x, y)
    | _, _ => none
  | _ => none

/-- Modelled from the spec: parse a strict `@@ -a,b +c,d @@` hunk header. -/
def parseHunkHeader (s : String) : Option (Nat × Nat × Nat × Nat) :=
  let cs := s.data
  if ("@@ -".data).isPrefixOf cs ∧ (" @@".data).isSuffixOf cs ∧ 7 ≤ cs.length then
    match splitCharAux ' ' ((cs.drop 4).take (cs.length - 7)) [] with
    | [r1, r2] =>
      match r2 with
      | '+' :: r2' =>
        match parseHunkRange r1, parseHunkRange r2' with
        | some (a, b), some (c, d) => some (a, b, c, d)
        | _, _ => none
      | _ => none
    | _ => none
  else none

/-- Modelled from the spec: the strict hunk-application loop of a standard
patch consumer.  State: remaining document lines, position in the original,
remaining source/target line counts of the open hunk, output accumulator. -/
def applyLoop (orig : List String) : List String → Nat → Nat → Nat → List String →
    Option (List String)
  | [], pos, b, d, acc =>
    if b = 0 ∧ d = 0 then some (acc ++ orig.drop pos) else none
  | l :: ls, pos, b, d, acc =>
    if b = 0 ∧ d = 0 then
      match parseHunkHeader l with
      | none => none
      | some (a, b', _c, d') =>
        let srcStart := if b' = 0 then a else a - 1
        if pos ≤ srcStart ∧ srcStart ≤ orig.length then
          applyLoop orig ls srcStart b' d' (acc ++ ((orig.drop pos).take (srcStart - pos)))
        else none
    else
      match l.data with
      | ' ' :: restLine =>
        if 0 < b ∧ 0 < d then
          match orig.get? pos with
          | some ol =>
            if ol.data = restLine then applyLoop orig ls (pos + 1) (b - 1) (d - 1) (acc ++ [ol])
            else none
          | none => none
        else none
      | '-' :: restLine =>
        if 0 < b then
          match orig.get? pos with
          | some ol =>
            if ol.data = restLine then applyLoop orig ls (pos + 1) (b - 1) d acc
            else none
          | none => none
        else none
      | '+' :: restLine =>
        if 0 < d then applyLoop orig ls pos b (d - 1) (acc ++ [(⟨restLine⟩ : String)])
        else none
      | _ => none

/-- Modelled from the spec: strict application of a unified-diff document to
the original line list — `---`/`+++` header lines, then hunks; every hunk
line must carry its ` `/`-`/`+` prefix. -/
def applyUnified (doc : String) (orig : List String) : Option (List String) :=
  match docLines doc with
  | l0 :: l1 :: rest =>
    if ("--- ".data).isPrefixOf l0.data ∧ ("+++ ".data).isPrefixOf l1.data then
      applyLoop orig rest 0 0 0 []
    else none
  | _ => none

/-- **C2 (code_bug evidence).** On the spec's round-trip example the code's
artifact is *not* byte-faithful unified diff: `unified_diff`'s default
`lineterm='\n'` leaves the terminator on the `---`/`+++`/`@@` lines and the
subsequent `'\n'.join` doubles it, injecting a blank line after each header,
so strict application fails — while the same diff without the doubled
newlines applies cleanly and yields exactly the remote content. -/
theorem c2_artifact_not_strict_unified_diff :
    diffText ["a", "b", "c"] ["a", "x", "c"] "modules/C.sol" "C.sol" =
      "--- modules/C.sol\n\n+++ C.sol\n\n@@ -1,3 +1,3 @@\n\n a\n-b\n+x\n c" ∧
    applyUnified (diffText ["a", "b", "c"] ["a", "x", "c"] "modules/C.sol" "C.sol")
      ["a", "b", "c"] = none ∧
    applyUnified "--- modules/C.sol\n+++ C.sol\n@@ -1,3 +1,3 @@\n a\n-b\n+x\n c"
      ["a", "b", "c"] = some ["a", "x", "c"] := by
  refine ⟨by decide, by decide, by decide⟩

/-! ## C5: comparing a sequence against itself yields the empty diff

`unified_diff(a, a)` must produce nothing.  The crux is that
`find_longest_match` on identical sequences returns the full-range match
`(0, 0, len(a))`: the chain-building loop only ever installs *diagonal*
bests (an off-diagonal chain is never strictly longer than a diagonal one
already seen), and the two extension loops then grow any diagonal best to
the full range.  `chainLen a i j` is the value the loop stores in
`newj2len[j]` while processing row `i` when `a` is diffed against itself. -/

theorem mem_b2j (b : List String) (x : String) (j : Nat) :
    j ∈ b2j b x ↔ ¬(isPopular b x = true) ∧ j < b.length ∧ b.getD j "" = x := by
  unfold b2j
  by_cases hp : isPopular b x = true
  · simp [hp]
  · simp [hp, List.mem_filter, List.mem_range]

theorem b2j_pairwise (b : List String) (x : String) :
    List.Pairwise (· < ·) (b2j b x) := by
  unfold b2j
  by_cases hp : isPopular b x = true
  · simp [hp]
  · rw [if_neg hp]
    exact (List.pairwise_lt_range b.length).sublist (List.filter_sublist _)

/-- The chain length the inner loop computes at row `i`, key `j`, when
matching `a` against itself: `1` more than the previous row's value at
`j - 1` when that key exists, else `1`. -/
def chainLen (a : List String) : Nat → Nat → Nat
  | 0, _ => 1
  | _ + 1, 0 => 1
  | i + 1, j + 1 => if j ∈ b2j a (a.getD i "") then chainLen a i j + 1 else 1

theorem chainLen_pos (a : List String) (i j : Nat) : 1 ≤ chainLen a i j := by
  cases i with
  | zero => simp [chainLen]
  | succ i =>
    cases j with
    | zero => simp [chainLen]
    | succ j =>
      simp only [chainLen]
      split <;> omega

theorem chainLen_zero_right (a : List String) (i : Nat) : chainLen a i 0 = 1 := by
  cases i <;> simp [chainLen]

theorem chainLen_le_row (a : List String) (i j : Nat) : chainLen a i j ≤ i + 1 := by
  induction i generalizing j with
  | zero => simp [chainLen]
  | succ i ih =>
    cases j with
    | zero => simp [chainLen]
    | succ j =>
      simp only [chainLen]
      split
      · have := ih j; omega
      · omega

/-- Membership in a row is a property of the element's *value*: a matching
key `j` of row `i` is also a key of its own row `j`. -/
theorem mem_row_of_mem (a : List String) (i j : Nat)
    (h : j ∈ b2j a (a.getD i "")) : j ∈ b2j a (a.getD j "") := by
  obtain ⟨hpop, hjn, hveq⟩ := (mem_b2j a _ j).mp h
  exact (mem_b2j a _ j).mpr ⟨by rw [hveq]; exact hpop, hjn, rfl⟩

/-- A nonempty row `i` (with `i` in range) contains its own diagonal key. -/
theorem diag_mem_row (a : List String) (i j : Nat) (hi : i < a.length)
    (h : j ∈ b2j a (a.getD i "")) : i ∈ b2j a (a.getD i "") := by
  obtain ⟨hpop, _, _⟩ := (mem_b2j a _ j).mp h
  exact (mem_b2j a _ i).mpr ⟨hpop, hi, rfl⟩

/-- Within one row, no chain beats the diagonal chain. -/
theorem chainLen_le_diag (a : List String) :
    ∀ i j, i < a.length → j ∈ b2j a (a.getD i "") →
      chainLen a i j ≤ chainLen a i i := by
  intro i
  induction i with
  | zero => intro j _ _; simp [chainLen]
  | succ i ih =>
    intro j hi hj
    cases j with
    | zero =>
      rw [chainLen_zero_right]
      exact chainLen_pos a (i + 1) (i + 1)
    | succ j =>
      simp only [chainLen]
      by_cases hmem : j ∈ b2j a (a.getD i "")
      · rw [if_pos hmem]
        have hii : i ∈ b2j a (a.getD i "") := diag_mem_row a i j (by omega) hmem
        rw [if_pos hii]
        have := ih j (by omega) hmem
        omega
      · rw [if_neg hmem]
        exact chainLen_pos a (i + 1) (i + 1)

/-- A chain ending at a key `j` left of the diagonal is no longer than the
diagonal chain of row `j`, which an earlier row already completed. -/
theorem chainLen_le_past_diag (a : List String) :
    ∀ i j, j ∈ b2j a (a.getD i "") → j < i → chainLen a i j ≤ chainLen a j j := by
  intro i
  induction i with
  | zero => intro j _ hj; omega
  | succ i ih =>
    intro j hj hlt
    cases j with
    | zero => rw [chainLen_zero_right, chainLen_zero_right]
    | succ j =>
      simp only [chainLen]
      by_cases hmem : j ∈ b2j a (a.getD i "")
      · rw [if_pos hmem]
        have hjj : j ∈ b2j a (a.getD j "") := mem_row_of_mem a i j hmem
        rw [if_pos hjj]
        have := ih j hmem (by omega)
        omega
      · rw [if_neg hmem]
        exact chainLen_pos a (j + 1) (j + 1)

/-- The `k = j2len.get(j-1, 0) + 1` computed in row `i` is `chainLen a i j`,
given that `j2len` holds row `i - 1`. -/
theorem k_eq_chainLen (a : List String) (i j : Nat) (j2len : Nat → Nat)
    (hprev : ∀ j', j2len j' =
      if i ≠ 0 ∧ j' ∈ b2j a (a.getD (i - 1) "") then chainLen a (i - 1) j' else 0) :
    (if j = 0 then 0 else j2len (j - 1)) + 1 = chainLen a i j := by
  cases j with
  | zero => rw [if_pos rfl, chainLen_zero_right]
  | succ j' =>
    rw [if_neg (Nat.succ_ne_zero j')]
    simp only [Nat.add_sub_cancel]
    rw [hprev j']
    cases i with
    | zero => simp [chainLen]
    | succ i' =>
      simp only [Nat.add_sub_cancel, chainLen]
      by_cases hm : j' ∈ b2j a (a.getD i' "")
      · rw [if_pos ⟨Nat.succ_ne_zero i', hm⟩, if_pos hm]
      · rw [if_neg (fun hc => hm hc.2), if_neg hm]

/-- Invariant of the inner `for j in b2j[a[i]]` loop when `a` is matched
against itself over the full ranges: the best block stays diagonal, its
extent stays in range, the fresh dictionary fills with `chainLen` values,
and the best size dominates every chain value seen so far. -/
theorem flmLoop_self (a : List String) (n : Nat) (hn : n = a.length)
    (i : Nat) (hi : i < n) (j2len : Nat → Nat)
    (hprev : ∀ j', j2len j' =
      if i ≠ 0 ∧ j' ∈ b2j a (a.getD (i - 1) "") then chainLen a (i - 1) j' else 0) :
    ∀ (js processed : List Nat) (newj2len : Nat → Nat) (x s : Nat),
      b2j a (a.getD i "") = processed ++ js →
      (∀ j' ∈ processed, chainLen a i j' ≤ s) →
      (∀ i' j', i' < i → j' ∈ b2j a (a.getD i' "") → chainLen a i' j' ≤ s) →
      x + s ≤ n →
      (∀ j', newj2len j' = if j' ∈ processed then chainLen a i j' else 0) →
      ∃ x' s',
        (flmLoop i 0 n j2len js newj2len (x, x, s)).2 = (x', x', s') ∧
        (∀ j', (flmLoop i 0 n j2len js newj2len (x, x, s)).1 j' =
          if j' ∈ b2j a (a.getD i "") then chainLen a i j' else 0) ∧
        x' + s' ≤ n ∧
        (∀ j' ∈ b2j a (a.getD i ""), chainLen a i j' ≤ s') ∧
        (∀ i' j', i' < i → j' ∈ b2j a (a.getD i' "") → chainLen a i' j' ≤ s') := by
  intro js
  induction js with
  | nil =>
    intro processed newj2len x s hrow hproc hpast hxs hdict
    rw [List.append_nil] at hrow
    refine ⟨x, s, rfl, ?_, hxs, ?_, hpast⟩
    · intro j'
      show newj2len j' = _
      rw [hdict j', hrow]
    · intro j' hj'
      rw [hrow] at hj'
      exact hproc j' hj'
  | cons j js ih =>
    intro processed newj2len x s hrow hproc hpast hxs hdict
    have hjrow : j ∈ b2j a (a.getD i "") := by
      rw [hrow]; exact List.mem_append_right _ (List.mem_cons_self _ _)
    have hjn : j < n := by
      obtain ⟨_, hjl, _⟩ := (mem_b2j a _ j).mp hjrow
      omega
    simp only [flmLoop]
    rw [if_neg (Nat.not_lt_zero j), if_neg (by omega : ¬ n ≤ j)]
    have hk : (if j = 0 then 0 else j2len (j - 1)) + 1 = chainLen a i j :=
      k_eq_chainLen a i j j2len hprev
    by_cases hupd : s < (if j = 0 then 0 else j2len (j - 1)) + 1
    · -- strict improvement: only the diagonal key can achieve it
      have hsk : s < chainLen a i j := by rw [← hk]; exact hupd
      have hji : j = i := by
        rcases Nat.lt_trichotomy j i with hlt | heq | hgt
        · exfalso
          have h1 := chainLen_le_past_diag a i j hjrow hlt
          have h2 := hpast j j hlt (mem_row_of_mem a i j hjrow)
          omega
        · exact heq
        · exfalso
          have hidiag : i ∈ b2j a (a.getD i "") := diag_mem_row a i j (by omega) hjrow
          have hpw : List.Pairwise (· < ·) (b2j a (a.getD i "")) := b2j_pairwise a _
          rw [hrow] at hpw hidiag
          rcases List.mem_append.mp hidiag with hip | hic
          · have h1 := chainLen_le_diag a i j (by omega) hjrow
            have h2 := hproc i hip
            omega
          · rcases List.mem_cons.mp hic with hij | hijs
            · omega
            · obtain ⟨-, pw2, -⟩ := List.pairwise_append.mp hpw
              have := (List.pairwise_cons.mp pw2).1 i hijs
              omega
      have hij : i = j := hji.symm
      subst hij
      rw [if_pos hupd, hk]
      have hc_le : chainLen a i i ≤ i + 1 := chainLen_le_row a i i
      apply ih (processed ++ [i]) _ (i + 1 - chainLen a i i) (chainLen a i i)
      · rw [hrow, List.append_assoc]
        rfl
      · intro j' hj'
        rcases List.mem_append.mp hj' with hl | hr
        · exact le_trans (hproc j' hl) (by omega)
        · rw [List.mem_singleton.mp hr]
      · intro i' j' hi' hj'
        exact le_trans (hpast i' j' hi' hj') (by omega)
      · omega
      · intro j'
        by_cases hji' : j' = i
        · subst hji'
          rw [if_pos rfl, if_pos (List.mem_append_right _ (List.mem_singleton.mpr rfl))]
        · rw [if_neg hji', hdict j']
          by_cases hjp : j' ∈ processed
          · rw [if_pos hjp, if_pos (List.mem_append_left _ hjp)]
          · rw [if_neg hjp, if_neg (fun hc => ?_)]
            rcases List.mem_append.mp hc with hl | hr
            · exact hjp hl
            · exact hji' (List.mem_singleton.mp hr)
    · -- no improvement: the best is unchanged
      rw [if_neg hupd, hk]
      have hks : chainLen a i j ≤ s := by rw [← hk]; omega
      apply ih (processed ++ [j]) _ x s
      · rw [hrow, List.append_assoc]
        rfl
      · intro j' hj'
        rcases List.mem_append.mp hj' with hl | hr
        · exact hproc j' hl
        · rw [List.mem_singleton.mp hr]; exact hks
      · exact hpast
      · exact hxs
      · intro j'
        by_cases hji' : j' = j
        · subst hji'
          rw [if_pos rfl, if_pos (List.mem_append_right _ (List.mem_singleton.mpr rfl))]
        · rw [if_neg hji', hdict j']
          by_cases hjp : j' ∈ processed
          · rw [if_pos hjp, if_pos (List.mem_append_left _ hjp)]
          · rw [if_neg hjp, if_neg (fun hc => ?_)]
            rcases List.mem_append.mp hc with hl | hr
            · exact hjp hl
            · exact hji' (List.mem_singleton.mp hr)

/-- Row-fold invariant for the self match: starting from any diagonal best
within range, processing the remaining rows ends in a diagonal best within
range. -/
theorem flmRows_self (a : List String) (n : Nat) (hn : n = a.length) :
    ∀ (cnt start : Nat), start + cnt = n →
    ∀ (j2len : Nat → Nat) (x s : Nat),
      (∀ j', j2len j' =
        if start ≠ 0 ∧ j' ∈ b2j a (a.getD (start - 1) "")
        then chainLen a (start - 1) j' else 0) →
      (∀ i' j', i' < start → j' ∈ b2j a (a.getD i' "") → chainLen a i' j' ≤ s) →
      x + s ≤ n →
      ∃ x' s', flmRows a a 0 n (List.range' start cnt) j2len (x, x, s) = (x', x', s') ∧
        x' + s' ≤ n := by
  intro cnt
  induction cnt with
  | zero =>
    intro start hsum j2len x s hprev hpast hxs
    exact ⟨x, s, rfl, hxs⟩
  | succ cnt ih =>
    intro start hsum j2len x s hprev hpast hxs
    have hrange : List.range' start (cnt + 1) = start :: List.range' (start + 1) cnt := by
      simpa using List.range'_succ start cnt 1
    rw [hrange]
    simp only [flmRows]
    obtain ⟨x', s', h2, hdict, hxs', hrowle, hpastle⟩ :=
      flmLoop_self a n hn start (by omega) j2len hprev
        (b2j a (a.getD start "")) [] (fun _ => 0) x s rfl (by simp) hpast hxs (by simp)
    rw [h2]
    apply ih (start + 1) (by omega) _ x' s'
    · intro j'
      simp only [Nat.add_sub_cancel]
      rw [hdict j']
      by_cases hm : j' ∈ b2j a (a.getD start "")
      · rw [if_pos hm, if_pos ⟨Nat.succ_ne_zero start, hm⟩]
      · rw [if_neg hm, if_neg (fun hc => hm hc.2)]
    · intro i' j' hi' hj'
      rcases Nat.lt_or_ge i' start with hlt | hge
      · exact hpastle i' j' hlt hj'
      · have : i' = start := by omega
        subst this
        exact hrowle j' hj'
    · exact hxs'

theorem extendBack_self_diag (a : List String) :
    ∀ (x s : Nat), extendBack a a 0 0 x x s = (0, 0, x + s) := by
  intro x
  induction x with
  | zero => intro s; simp [extendBack]
  | succ x ih =>
    intro s
    simp only [extendBack]
    rw [if_pos ⟨Nat.succ_pos x, Nat.succ_pos x, by rw [Nat.add_sub_cancel]⟩]
    simp only [Nat.add_sub_cancel]
    rw [ih (s + 1)]
    have : x + (s + 1) = x + 1 + s := by omega
    rw [this]

theorem extendFwdAux_self (a : List String) (n : Nat) :
    ∀ (fuel s : Nat), s ≤ n → n ≤ s + fuel → extendFwdAux a a n n 0 0 fuel s = n := by
  intro fuel
  induction fuel with
  | zero =>
    intro s h1 h2
    simp only [extendFwdAux]
    omega
  | succ fuel ih =>
    intro s h1 h2
    simp only [extendFwdAux]
    by_cases hs : s < n
    · rw [if_pos ⟨by omega, by omega, trivial⟩]
      exact ih (s + 1) (by omega) (by omega)
    · rw [if_neg (fun hc => hs (by have := hc.1; omega))]
      omega

/-- `find_longest_match` over the full ranges of two *identical* sequences
returns the whole-sequence match. -/
theorem findLongestMatch_self (a : List String) :
    findLongestMatch a a 0 a.length 0 a.length = (0, 0, a.length) := by
  simp only [findLongestMatch, Nat.sub_zero]
  obtain ⟨x', s', hrows, hxs⟩ :=
    flmRows_self a a.length rfl a.length 0 (by omega) (fun _ => 0) 0 0
      (by intro j'; simp) (by intro i' j' hc _; omega) (by omega)
  rw [hrows]
  rw [extendBack_self_diag a x' s']
  rw [extendFwdAux_self a a.length a.length (x' + s') hxs (by omega)]

theorem mbLoop_nil (a b : List String) (fuel : Nat) (acc : List (Nat × Nat × Nat)) :
    mbLoop a b fuel [] acc = acc := by
  cases fuel <;> rfl

theorem getMatchingBlocks_self_nil (a : List String) (h : a.length = 0) :
    getMatchingBlocks a a = [(0, 0, 0)] := by
  have hflm := findLongestMatch_self a
  rw [h] at hflm
  unfold getMatchingBlocks
  rw [h]
  simp only [mbLoop, hflm]
  rfl

theorem getMatchingBlocks_self_pos (a : List String) (m : Nat) (h : a.length = m + 1) :
    getMatchingBlocks a a = [(0, 0, m + 1), (m + 1, m + 1, 0)] := by
  have hflm := findLongestMatch_self a
  rw [h] at hflm
  unfold getMatchingBlocks
  rw [h]
  simp only [mbLoop, hflm]
  rw [if_pos (Nat.succ_ne_zero m)]
  rw [if_neg (by omega : ¬ ((0 : Nat) < 0 ∧ (0 : Nat) < 0))]
  rw [if_neg (by omega : ¬ (0 + (m + 1) < m + 1 ∧ 0 + (m + 1) < m + 1))]
  rw [mbLoop_nil]
  simp [sortBlocks, insertSorted, collapseLoop]

theorem getOpcodes_self_nil (a : List String) (h : a.length = 0) :
    getOpcodes a a = [] := by
  unfold getOpcodes
  rw [getMatchingBlocks_self_nil a h]
  simp [opcodesLoop]

theorem getOpcodes_self_pos (a : List String) (m : Nat) (h : a.length = m + 1) :
    getOpcodes a a = [⟨.equal, 0, m + 1, 0, m + 1⟩] := by
  unfold getOpcodes
  rw [getMatchingBlocks_self_pos a m h]
  simp [opcodesLoop]

/-- A lone `equal` opcode spanning at most `2n` source lines is dropped by
the grouping pass. -/
theorem groupLoop_single_equal (n i1 i2 j1 j2 : Nat) (h : i2 - i1 ≤ 2 * n) :
    groupLoop n [⟨.equal, i1, i2, j1, j2⟩] [] [] = [] := by
  simp only [groupLoop]
  rw [if_neg (fun hc => by have := hc.2; omega)]
  simp [groupLoop]

theorem groupedOpcodes_self (a : List String) : groupedOpcodes a a 3 = [] := by
  unfold groupedOpcodes
  cases hn : a.length with
  | zero =>
    rw [getOpcodes_self_nil a hn]
    rfl
  | succ m =>
    rw [getOpcodes_self_pos a m hn]
    show groupLoop 3 (fixupLast 3 (fixupFirst 3
      (if ([⟨.equal, 0, m + 1, 0, m + 1⟩] : List Opcode) = []
       then [⟨.equal, 0, 1, 0, 1⟩]
       else [⟨.equal, 0, m + 1, 0, m + 1⟩]))) [] [] = []
    rw [if_neg (by simp)]
    simp only [fixupFirst, fixupLast]
    rw [if_pos trivial]
    apply groupLoop_single_equal
    omega

/-- `unified_diff` of a sequence against itself generates nothing. -/
theorem unifiedDiff_self (a : List String) (fromfile tofile : String) :
    unifiedDiff a a fromfile tofile = [] := by
  unfold unifiedDiff
  rw [groupedOpcodes_self a]

/-- The `diff_text` of identical line lists is the empty string (falsy in
the `if diff_text:` test). -/
theorem diffText_self (a : List String) (fromfile tofile : String) :
    diffText a a fromfile tofile = "" := by
  unfold diffText
  rw [unifiedDiff_self]
  rfl

/-- **C5.** A resolved entry whose local file lines equal the remote content
lines has an empty computed delta: no `Compared` is produced, no artifact is
written — the run result is exactly that of the remaining entries — and the
entry is counted as clean. -/
theorem c5_identical_content_is_clean (targetRepo checkFolder : String)
    (repo : LocalRepo) (sc : SourceCode) (rest : List SourceCode) (lf : List String)
    (hres : findMostCommonPath sc.file_name repo = some lf)
    (hread : readLines repo lf = some sc.file_content) :
    diffText sc.file_content sc.file_content
      (renderLocal targetRepo lf) (joinSlash sc.file_name) = "" ∧
    findDiffs targetRepo checkFolder repo (sc :: rest) =
      findDiffs targetRepo checkFolder repo rest ∧
    cleanCount targetRepo repo (sc :: rest) = cleanCount targetRepo repo rest + 1 := by
  have hdt := diffText_self sc.file_content
    (renderLocal targetRepo lf) (joinSlash sc.file_name)
  refine ⟨hdt, ?_, ?_⟩
  · exact findDiffs_cons_clean targetRepo checkFolder repo sc rest lf sc.file_content
      hres hread hdt
  · have hclean : isClean targetRepo repo sc = true := by
      simp [isClean, hres, hread, hdt]
    simp [cleanCount, List.countP_cons, hclean]

/-- Witness for C5: a one-file tree whose content equals the remote entry's;
the run equals the empty-tail run and the clean count is 1. -/
theorem c5_witness :
    findMostCommonPath ["a.sol"] ⟨true, [(["a.sol"], ["same1", "same2"])]⟩ =
      some ["a.sol"] ∧
    readLines ⟨true, [(["a.sol"], ["same1", "same2"])]⟩ ["a.sol"] =
      some ["same1", "same2"] ∧
    diffText ["same1", "same2"] ["same1", "same2"]
      (renderLocal "m" ["a.sol"]) (joinSlash ["a.sol"]) = "" ∧
    findDiffs "m" "ck" ⟨true, [(["a.sol"], ["same1", "same2"])]⟩
        [⟨["a.sol"], ["same1", "same2"]⟩] =
      findDiffs "m" "ck" ⟨true, [(["a.sol"], ["same1", "same2"])]⟩ [] ∧
    cleanCount "m" ⟨true, [(["a.sol"], ["same1", "same2"])]⟩
        [⟨["a.sol"], ["same1", "same2"]⟩] =
      cleanCount "m" ⟨true, [(["a.sol"], ["same1", "same2"])]⟩ [] + 1 := by
  have h := c5_identical_content_is_clean "m" "ck"
    ⟨true, [(["a.sol"], ["same1", "same2"])]⟩
    ⟨["a.sol"], ["same1", "same2"]⟩ [] ["a.sol"] (by decide) (by decide)
  exact ⟨by decide, by decide, h.1, h.2.1, h.2.2⟩

end QuorumDiff
